import Mathlib

/-
Verification development for the CP468/tictactoe game engine
(src/tictactoe.py, with src/test.py as a near-duplicate variant).

The board `self._current_moves` is a list of rows, each row a list of
`Move(row, col, label)` named tuples.  The engine only ever reads a cell's
`label` field, and every write at position (r, c) stores a `Move` whose
row/col fields are exactly (r, c); so a cell is embedded as its label
string: "" (empty), "X", or "O".

Scores in the Python search are ints mixed with `float("inf")` /
`-float("inf")` sentinels; they are embedded as `WithBot (WithTop Int)`,
whose linear order matches the Python comparisons (`max`, `min`, `<=`, `<`)
on that mixed domain.
-/

namespace TicTacToe

/-- A board is the grid of cell labels of `self._current_moves`, row-major. -/
abbrev Board := List (List String)

/-- Read the label at `self._current_moves[r][c]` (total: out-of-range reads
return "", which only well-formedness lemmas rely on). -/
def getCell (b : Board) (r c : Nat) : String :=
  (b.getD r []).getD c ""

/-- Write the label at `self._current_moves[r][c] = Move(r, c, v)`
(out-of-range writes are dropped, as `List.set` is). -/
def setCell (b : Board) (r c : Nat) (v : String) : Board :=
  b.set r ((b.getD r []).set c v)

/-- The board is an `n` by `n` grid, as `_setup_board` builds it. -/
abbrev wf_board (n : Nat) (b : Board) : Prop :=
  b.length = n ∧ ∀ row ∈ b, row.length = n

/-- Search scores: Python ints together with the two `float("inf")`
sentinels, ordered as Python orders them. -/
abbrev Score := WithBot (WithTop Int)

/-- A plain int score. -/
def toScore (k : Int) : Score := ((k : WithTop Int) : WithBot (WithTop Int))

/-- TicTacToeGame._get_winning_combos.  `rows` lists the coordinate pairs of
each row; `columns` is the zip-transpose, so column j is [(r, j) for r];
`first_diagonal` takes rows[i][i] = (i, i); `second_diagonal` takes
reversed(columns)[j][j] = (j, n - 1 - j). -/
def get_winning_combos (n : Nat) : List (List (Nat × Nat)) :=
  let rows := (List.range n).map (fun r => (List.range n).map (fun c => (r, c)))
  let columns := (List.range n).map (fun j => (List.range n).map (fun r => (r, j)))
  let first_diagonal := (List.range n).map (fun i => (i, i))
  let second_diagonal := (List.range n).map (fun j => (j, n - 1 - j))
  rows ++ columns ++ [first_diagonal, second_diagonal]

/-- The combo scan inside TicTacToeGame.get_winner: for each combo, in
order, first test all-"X", then all-"O"; the all-"O" case returns the
literal string "Y" exactly as line 161 of src/tictactoe.py does. -/
def scan_combos (b : Board) : List (List (Nat × Nat)) → Option (String × List (Nat × Nat))
  | [] => none
  | combo :: rest =>
    if combo.all (fun p => getCell b p.1 p.2 == "X") then some ("X", combo)
    else if combo.all (fun p => getCell b p.1 p.2 == "O") then some ("Y", combo)
    else scan_combos b rest

/-- TicTacToeGame.get_winner (src/tictactoe.py lines 155-168).  After the
combo scan, a full board (every label truthy) is a tie, else in progress. -/
def get_winner (combos : List (List (Nat × Nat))) (b : Board) :
    Option String × List (Nat × Nat) :=
  match scan_combos b combos with
  | some (w, combo) => (some w, combo)
  | none =>
    if b.all (fun row => row.all (fun s => s != "")) then (some "TIE", [])
    else (none, [])

/-- The loop body of TicTacToeGame.heuristic_evaluation: bump player_score
if the combo holds an "O" and no "X", opponent_score if the reverse. -/
def heuristic_step (b : Board) (acc : Nat × Nat) (combo : List (Nat × Nat)) : Nat × Nat :=
  let player_in_combo := combo.any (fun p => getCell b p.1 p.2 == "O")
  let opponent_in_combo := combo.any (fun p => getCell b p.1 p.2 == "X")
  if player_in_combo && !opponent_in_combo then (acc.1 + 1, acc.2)
  else if opponent_in_combo && !player_in_combo then (acc.1, acc.2 + 1)
  else acc

/-- TicTacToeGame.heuristic_evaluation: fold over the winning combos
accumulating (player_score, opponent_score), then subtract.  The method
only reads `self._current_moves`, so it is a pure function of the board. -/
def heuristic_evaluation (combos : List (List (Nat × Nat))) (b : Board) : Int :=
  let acc := combos.foldl (heuristic_step b) (0, 0)
  (acc.1 : Int) - (acc.2 : Int)

/-- Python's int() on a rational value: truncation toward zero. -/
def py_int (q : ℚ) : ℤ := if 0 ≤ q then ⌊q⌋ else ⌈q⌉

/-- The depth bound TicTacToeGame.ai passes to minimax (line 87):
2 + int(((max_cells - cells_left) / max_cells) * 2). -/
def ai_max_depth (n : Nat) (cells_left : Int) : Int :=
  let max_cells : Int := (n : Int) ^ 2
  2 + py_int ((((max_cells - cells_left : Int) : ℚ) / ((max_cells : Int) : ℚ)) * 2)

/-- The inner `for col` loop of the maximizing branch of minimax.  State is
(best_score, alpha, board); `rec` is the recursive minimax call at the next
depth (board and current alpha vary, beta is fixed in this branch).  The
`beta <= alpha` break exits only this column loop, after the undo. -/
def cols_max (rec : Board → Score → Score × Board) (beta : Score) (r : Nat) :
    List Nat → Score × Score × Board → Score × Score × Board
  | [], st => st
  | c :: rest, (best, alpha, b) =>
    if getCell b r c = "" then
      let b1 := setCell b r c "O"
      let p := rec b1 alpha
      let b3 := setCell p.2 r c ""
      let best' := max best p.1
      let alpha' := max alpha best'
      if beta ≤ alpha' then (best', alpha', b3)
      else cols_max rec beta r rest (best', alpha', b3)
    else cols_max rec beta r rest (best, alpha, b)

/-- The outer `for row` loop of the maximizing branch: the column loop runs
for every row, with best_score/alpha carried across rows. -/
def rows_max (rec : Board → Score → Score × Board) (beta : Score) (n : Nat)
    (rows : List Nat) (st : Score × Score × Board) : Score × Score × Board :=
  rows.foldl (fun st r => cols_max rec beta r (List.range n) st) st

/-- The inner `for col` loop of the minimizing branch.  State is
(best_score, beta, board); alpha is fixed in this branch. -/
def cols_min (rec : Board → Score → Score × Board) (alpha : Score) (r : Nat) :
    List Nat → Score × Score × Board → Score × Score × Board
  | [], st => st
  | c :: rest, (best, beta, b) =>
    if getCell b r c = "" then
      let b1 := setCell b r c "X"
      let p := rec b1 beta
      let b3 := setCell p.2 r c ""
      let best' := min best p.1
      let beta' := min beta best'
      if beta' ≤ alpha then (best', beta', b3)
      else cols_min rec alpha r rest (best', beta', b3)
    else cols_min rec alpha r rest (best, beta, b)

/-- The outer `for row` loop of the minimizing branch. -/
def rows_min (rec : Board → Score → Score × Board) (alpha : Score) (n : Nat)
    (rows : List Nat) (st : Score × Score × Board) : Score × Score × Board :=
  rows.foldl (fun st r => cols_min rec alpha r (List.range n) st) st

/-- TicTacToeGame.minimax (src/tictactoe.py lines 96-135).  The Python
method mutates and restores `self._current_moves`; here the board is
threaded explicitly and returned alongside the score.  `fuel` bounds the
recursion depth (the Python recursion terminates because every recursive
call fills an empty cell and a full board is terminal; any fuel at least
the number of empty cells is enough, and callers pass n^2). -/
def minimax (n : Nat) (combos : List (List (Nat × Nat))) (fuel : Nat) (b : Board)
    (is_maximizing : Bool) (alpha beta : Score) (max_depth depth : Int) :
    Score × Board :=
  let winner := (get_winner combos b).1
  if max_depth = depth ∨ winner ≠ none then
    (if winner = some "X" then toScore (-10 + depth)
     else if winner = some "O" then toScore (10 - depth)
     else if winner = some "TIE" then toScore 0
     else toScore (heuristic_evaluation combos b), b)
  else
    match fuel with
    | 0 => (toScore 0, b)
    | fuel' + 1 =>
      if is_maximizing then
        let st := rows_max
          (fun b1 a1 => minimax n combos fuel' b1 false a1 beta max_depth (depth + 1))
          beta n (List.range n) (⊥, alpha, b)
        (st.1, st.2.2)
      else
        let st := rows_min
          (fun b1 b2 => minimax n combos fuel' b1 true alpha b2 max_depth (depth + 1))
          alpha n (List.range n) (⊤, beta, b)
        (st.1, st.2.2)

/-- One cell of the candidate loop in TicTacToeGame.ai: provisionally place
"O", score by minimax(False, -inf, +inf, max_depth), undo, and keep the
move on a strictly greater score. -/
def ai_step (n : Nat) (combos : List (List (Nat × Nat))) (maxD : Int) (r : Nat)
    (st : Score × Option (Nat × Nat) × Board) (c : Nat) :
    Score × Option (Nat × Nat) × Board :=
  let (best_score, best_move, b) := st
  if getCell b r c = "" then
    let b1 := setCell b r c "O"
    let p := minimax n combos (n ^ 2) b1 false ⊥ ⊤ maxD 0
    let b3 := setCell p.2 r c ""
    if best_score < p.1 then (p.1, some (r, c), b3)
    else (best_score, best_move, b3)
  else st

/-- TicTacToeGame.ai (src/tictactoe.py lines 78-94): best_score starts at
-float("inf"), best_move at None; the double loop scans row-major. -/
def ai (n : Nat) (combos : List (List (Nat × Nat))) (b : Board)
    (cells_left : Int) : Option (Nat × Nat) × Board :=
  let maxD := ai_max_depth n cells_left
  let st := (List.range n).foldl
    (fun st r => (List.range n).foldl (ai_step n combos maxD r) st)
    ((⊥ : Score), (none : Option (Nat × Nat)), b)
  (st.2.1, st.2.2)

/-- The game object state touched by the claims: `board_size`,
`_current_moves` (as labels), `_has_winner`, `winner_combo`,
`_winning_combos`. -/
structure TicTacToeGame where
  board_size : Nat
  board : Board
  has_winner : Bool
  winner_combo : List (Nat × Nat)
  winning_combos : List (List (Nat × Nat))

/-- TicTacToeGame.reset_game (lines 70-76): every cell of the existing grid
is set back to the empty Move, the winner flag and combo are cleared; the
precomputed `_winning_combos` field is not touched. -/
def reset_game (g : TicTacToeGame) : TicTacToeGame :=
  { g with
    board := g.board.map (fun row => row.map (fun _ => "")),
    has_winner := false,
    winner_combo := [] }

/-- Python list indexing `l[i]`: 0 <= i < len reads directly, negative i
with -len <= i reads from the end, anything else raises IndexError (none). -/
def py_list_get {α : Type} (l : List α) (i : Int) : Option α :=
  if 0 ≤ i then l.get? i.toNat
  else if -(l.length : Int) ≤ i then l.get? (i + l.length).toNat
  else none

/-- TicTacToeGame.is_valid_move (lines 55-60):
`self._current_moves[row][col].label == ""` with Python list indexing, and
the `_has_winner` flag; none models an IndexError escaping the method. -/
def is_valid_move (g : TicTacToeGame) (row col : Int) : Option Bool :=
  match py_list_get g.board row with
  | none => none
  | some row_cells =>
    match py_list_get row_cells col with
    | none => none
    | some label => some (!g.has_winner && (label == ""))

/-- The empty cells of the n by n grid in the row-major order the ai loop
scans them. -/
def candidates (n : Nat) (b : Board) : List (Nat × Nat) :=
  (List.range n).flatMap
    (fun r => ((List.range n).filter (fun c => getCell b r c == "")).map (fun c => (r, c)))

/-- The score the ai loop assigns to placing "O" at candidate p. -/
def score_of (n : Nat) (combos : List (List (Nat × Nat))) (b : Board)
    (maxD : Int) (p : Nat × Nat) : Score :=
  (minimax n combos (n ^ 2) (setCell b p.1 p.2 "O") false ⊥ ⊤ maxD 0).1

/-- The pure selection fold underlying the ai loop: keep the first
strictly-improving candidate. -/
def sel_fold {α : Type} (f : α → Score) (l : List α) (st : Score × Option α) :
    Score × Option α :=
  l.foldl (fun st p => if st.1 < f p then (f p, some p) else st) st

/-- Running maximum of f over l starting from s. -/
def list_max {α : Type} (f : α → Score) (s : Score) (l : List α) : Score :=
  l.foldl (fun a p => max a (f p)) s

/-- Modelled from the spec: a winning line where the AI's mark "O" occupies
at least one cell and the opponent's "X" occupies none. -/
def line_open_for_O (b : Board) (combo : List (Nat × Nat)) : Bool :=
  (combo.any (fun p => getCell b p.1 p.2 == "O")) &&
    !(combo.any (fun p => getCell b p.1 p.2 == "X"))

/-- Modelled from the spec: a winning line where "X" occupies at least one
cell and "O" occupies none. -/
def line_open_for_X (b : Board) (combo : List (Nat × Nat)) : Bool :=
  (combo.any (fun p => getCell b p.1 p.2 == "X")) &&
    !(combo.any (fun p => getCell b p.1 p.2 == "O"))

/-- A 3 by 3 board whose top row is an all-"O" winning line. -/
def o_row_board : Board := [["O", "O", "O"], ["", "", ""], ["", "", ""]]


/-- A concrete mid-game 3 by 3 position with the winner flag set, used as a
witness state. -/
def g9 : TicTacToeGame :=
  { board_size := 3,
    board := [["X", "O", "X"], ["", "O", ""], ["", "X", ""]],
    has_winner := true,
    winner_combo := [(0, 1), (1, 1), (2, 1)],
    winning_combos := get_winning_combos 3 }

/-- How Python resolves an in-range list index: nonnegative indices read
directly, negative ones count from the end. -/
def pyResolve (n : Nat) (i : Int) : Nat :=
  if 0 ≤ i then i.toNat else (i + n).toNat

/-- A fresh 3 by 3 game: empty board, winner flag clear. -/
def g8 : TicTacToeGame :=
  { board_size := 3,
    board := [["", "", ""], ["", "", ""], ["", "", ""]],
    has_winner := false,
    winner_combo := [],
    winning_combos := get_winning_combos 3 }

/-- A 2 by 2 position with a single empty cell, used as a witness board for
the move-selection claim. -/
def b5 : Board := [["X", "O"], ["X", ""]]

/-- A full 1 by 1 board, used as a witness for the full-board claim. -/
def b10 : Board := [["X"]]

/-! Basic facts about cell reads and writes. -/

lemma list_set_getD {α : Type} (l : List α) (i : Nat) (d : α) :
    l.set i (l.getD i d) = l := by
  induction l generalizing i with
  | nil => simp
  | cons x xs ih =>
    cases i with
    | zero => simp
    | succ j =>
      show x :: xs.set j (xs.getD j d) = x :: xs
      rw [ih j]

lemma getD_set_self {α : Type} (l : List α) (i : Nat) (v d : α) :
    (l.set i v).getD i d = if i < l.length then v else d := by
  by_cases h : i < l.length
  · simp [List.getD_eq_getElem?_getD, List.getElem?_set_self h, h]
  · rw [List.set_eq_of_length_le (Nat.le_of_not_lt h)]
    simp [List.getD_eq_getElem?_getD, List.getElem?_eq_none (Nat.le_of_not_lt h), h]

lemma setCell_oob {b : Board} {r : Nat} (h : b.length ≤ r) (c : Nat) (v : String) :
    setCell b r c v = b :=
  List.set_eq_of_length_le h

lemma setCell_setCell (b : Board) (r c : Nat) (v w : String) :
    setCell (setCell b r c v) r c w = setCell b r c w := by
  by_cases h : r < b.length
  · unfold setCell
    rw [getD_set_self]
    simp [h, List.set_set]
  · rw [setCell_oob (Nat.le_of_not_lt h)]

lemma setCell_getCell (b : Board) (r c : Nat) :
    setCell b r c (getCell b r c) = b := by
  unfold setCell getCell
  rw [list_set_getD, list_set_getD]

lemma setCell_restore {b : Board} {r c : Nat} (h : getCell b r c = "") :
    setCell b r c "" = b := by
  rw [← h, setCell_getCell]

/-! Restoration: every provisional placement in the search is undone, so
the board component returned by the loops, by minimax and by ai is exactly
the board passed in. -/

lemma cols_max_board {rec : Board → Score → Score × Board}
    (hrec : ∀ b' a', (rec b' a').2 = b') (beta : Score) (r : Nat)
    (cols : List Nat) (st : Score × Score × Board) :
    (cols_max rec beta r cols st).2.2 = st.2.2 := by
  induction cols generalizing st with
  | nil => rfl
  | cons c rest ih =>
    obtain ⟨best, alpha, b⟩ := st
    show (cols_max rec beta r (c :: rest) (best, alpha, b)).2.2 = b
    rw [cols_max]
    by_cases hcell : getCell b r c = ""
    · rw [if_pos hcell]
      have hb2 : (rec (setCell b r c "O") alpha).2 = setCell b r c "O" := hrec _ _
      have hb3 : setCell (rec (setCell b r c "O") alpha).2 r c "" = b := by
        rw [hb2, setCell_setCell, setCell_restore hcell]
      by_cases hbreak :
          beta ≤ max alpha (max best (rec (setCell b r c "O") alpha).1)
      · simp only [hbreak, if_true]
        exact hb3
      · simp only [hbreak, if_false]
        rw [ih]
        exact hb3
    · rw [if_neg hcell]
      exact ih _

lemma cols_min_board {rec : Board → Score → Score × Board}
    (hrec : ∀ b' a', (rec b' a').2 = b') (alpha : Score) (r : Nat)
    (cols : List Nat) (st : Score × Score × Board) :
    (cols_min rec alpha r cols st).2.2 = st.2.2 := by
  induction cols generalizing st with
  | nil => rfl
  | cons c rest ih =>
    obtain ⟨best, beta, b⟩ := st
    show (cols_min rec alpha r (c :: rest) (best, beta, b)).2.2 = b
    rw [cols_min]
    by_cases hcell : getCell b r c = ""
    · rw [if_pos hcell]
      have hb2 : (rec (setCell b r c "X") beta).2 = setCell b r c "X" := hrec _ _
      have hb3 : setCell (rec (setCell b r c "X") beta).2 r c "" = b := by
        rw [hb2, setCell_setCell, setCell_restore hcell]
      by_cases hbreak :
          min beta (min best (rec (setCell b r c "X") beta).1) ≤ alpha
      · simp only [hbreak, if_true]
        exact hb3
      · simp only [hbreak, if_false]
        rw [ih]
        exact hb3
    · rw [if_neg hcell]
      exact ih _

lemma rows_max_board {rec : Board → Score → Score × Board}
    (hrec : ∀ b' a', (rec b' a').2 = b') (beta : Score) (n : Nat)
    (rows : List Nat) (st : Score × Score × Board) :
    (rows_max rec beta n rows st).2.2 = st.2.2 := by
  induction rows generalizing st with
  | nil => rfl
  | cons r rest ih =>
    show (rows_max rec beta n rest (cols_max rec beta r (List.range n) st)).2.2 = st.2.2
    rw [ih, cols_max_board hrec]

lemma rows_min_board {rec : Board → Score → Score × Board}
    (hrec : ∀ b' a', (rec b' a').2 = b') (alpha : Score) (n : Nat)
    (rows : List Nat) (st : Score × Score × Board) :
    (rows_min rec alpha n rows st).2.2 = st.2.2 := by
  induction rows generalizing st with
  | nil => rfl
  | cons r rest ih =>
    show (rows_min rec alpha n rest (cols_min rec alpha r (List.range n) st)).2.2 = st.2.2
    rw [ih, cols_min_board hrec]

lemma minimax_board (n : Nat) (combos : List (List (Nat × Nat))) :
    ∀ (fuel : Nat) (b : Board) (im : Bool) (alpha beta : Score) (mD d : Int),
      (minimax n combos fuel b im alpha beta mD d).2 = b := by
  intro fuel
  induction fuel with
  | zero =>
    intro b im alpha beta mD d
    rw [minimax]
    split
    · rfl
    · rfl
  | succ f ih =>
    intro b im alpha beta mD d
    rw [minimax]
    split
    · rfl
    · cases im with
      | true =>
        simp only [if_true]
        exact rows_max_board (fun b' a' => ih b' false a' beta mD (d + 1)) beta n _ _
      | false =>
        simp only [Bool.false_eq_true, if_false]
        exact rows_min_board (fun b' b2 => ih b' true alpha b2 mD (d + 1)) alpha n _ _

lemma ai_step_board (n : Nat) (combos : List (List (Nat × Nat))) (maxD : Int)
    (r : Nat) (st : Score × Option (Nat × Nat) × Board) (c : Nat) :
    (ai_step n combos maxD r st c).2.2 = st.2.2 := by
  obtain ⟨best, move, b⟩ := st
  show (ai_step n combos maxD r (best, move, b) c).2.2 = b
  rw [ai_step]
  by_cases hcell : getCell b r c = ""
  · simp only [hcell, if_true]
    have hb2 : (minimax n combos (n ^ 2) (setCell b r c "O") false ⊥ ⊤ maxD 0).2
        = setCell b r c "O" := minimax_board n combos _ _ _ _ _ _ _
    have hb3 : setCell (minimax n combos (n ^ 2) (setCell b r c "O") false ⊥ ⊤ maxD 0).2 r c ""
        = b := by
      rw [hb2, setCell_setCell, setCell_restore hcell]
    split
    · exact hb3
    · exact hb3
  · simp only [hcell, if_false]

lemma ai_board (n : Nat) (combos : List (List (Nat × Nat))) (b : Board)
    (cells_left : Int) : (ai n combos b cells_left).2 = b := by
  rw [ai]
  have inner : ∀ (r : Nat) (cols : List Nat) (st : Score × Option (Nat × Nat) × Board),
      (cols.foldl (ai_step n combos (ai_max_depth n cells_left) r) st).2.2 = st.2.2 := by
    intro r cols
    induction cols with
    | nil => intro st; rfl
    | cons c rest ih =>
      intro st
      show (rest.foldl _ (ai_step n combos _ r st c)).2.2 = st.2.2
      rw [ih, ai_step_board]
  have outer : ∀ (rows : List Nat) (st : Score × Option (Nat × Nat) × Board),
      (rows.foldl (fun st r =>
        (List.range n).foldl (ai_step n combos (ai_max_depth n cells_left) r) st) st).2.2
      = st.2.2 := by
    intro rows
    induction rows with
    | nil => intro st; rfl
    | cons r rest ih =>
      intro st
      show (rest.foldl _ ((List.range n).foldl _ st)).2.2 = st.2.2
      rw [ih, inner]
  exact outer _ _

/-- Claim C3: for every board state (and every combos list, fuel, search
window, depth arguments and cells_left argument), the board returned by
minimax, and the board returned by ai, is identical to the board passed
in: every provisional placement, including those on paths that exit a
column loop early through the alpha-beta pruning break, is undone. -/
theorem c3_search_restores_board :
    (∀ (n : Nat) (combos : List (List (Nat × Nat))) (fuel : Nat) (b : Board)
       (im : Bool) (alpha beta : Score) (mD d : Int),
       (minimax n combos fuel b im alpha beta mD d).2 = b) ∧
    (∀ (n : Nat) (combos : List (List (Nat × Nat))) (b : Board) (cells_left : Int),
       (ai n combos b cells_left).2 = b) :=
  ⟨fun n combos fuel b im alpha beta mD d => minimax_board n combos fuel b im alpha beta mD d,
   fun n combos b cells_left => ai_board n combos b cells_left⟩

/-! The winning-line set (claim C4), also used for the reset claim. -/

lemma combo_shape (n : Nat) :
    ∀ combo ∈ get_winning_combos n, combo.length = n ∧ combo.Nodup := by
  intro combo hc
  simp only [get_winning_combos, List.mem_append, List.mem_map, List.mem_range,
    List.mem_singleton, List.mem_cons, List.not_mem_nil, or_false] at hc
  rcases hc with (⟨r, _, rfl⟩ | ⟨j, _, rfl⟩) | (rfl | rfl)
  · exact ⟨by simp, (List.nodup_range n).map (fun a b h => by simpa using congrArg Prod.snd h)⟩
  · exact ⟨by simp, (List.nodup_range n).map (fun a b h => by simpa using congrArg Prod.fst h)⟩
  · exact ⟨by simp, (List.nodup_range n).map (fun a b h => by simpa using congrArg Prod.fst h)⟩
  · exact ⟨by simp, (List.nodup_range n).map (fun a b h => by simpa using congrArg Prod.fst h)⟩

/-- Claim C4: for every board size N >= 1 the generator yields exactly
2N + 2 lines (N rows, N columns, 2 diagonals), each of exactly N distinct
cells, and every cell (r, c) of the grid lies on at least 2 of the listed
lines (its row line and its column line are distinct entries of the list). -/
theorem c4_winning_combos (n : Nat) (hn : 1 ≤ n) :
    (get_winning_combos n).length = 2 * n + 2 ∧
    (∀ combo ∈ get_winning_combos n, combo.length = n ∧ combo.Nodup) ∧
    (∀ r, r < n → ∀ c, c < n →
      2 ≤ (get_winning_combos n).countP (fun combo => decide ((r, c) ∈ combo))) := by
  refine ⟨?_, combo_shape n, ?_⟩
  · simp [get_winning_combos]
    omega
  · intro r hr c hc
    have hrows : 0 < ((List.range n).map
        (fun r => (List.range n).map (fun c => (r, c)))).countP
        (fun combo => decide ((r, c) ∈ combo)) := by
      rw [List.countP_pos_iff]
      refine ⟨(List.range n).map (fun c => (r, c)), List.mem_map.mpr ⟨r, List.mem_range.mpr hr, rfl⟩, ?_⟩
      simp only [decide_eq_true_eq, List.mem_map, List.mem_range]
      exact ⟨c, hc, rfl⟩
    have hcols : 0 < ((List.range n).map
        (fun j => (List.range n).map (fun r => (r, j)))).countP
        (fun combo => decide ((r, c) ∈ combo)) := by
      rw [List.countP_pos_iff]
      refine ⟨(List.range n).map (fun i => (i, c)), List.mem_map.mpr ⟨c, List.mem_range.mpr hc, rfl⟩, ?_⟩
      simp only [decide_eq_true_eq, List.mem_map, List.mem_range]
      exact ⟨r, hr, rfl⟩
    simp only [get_winning_combos, List.countP_append]
    omega

/-- Witness for C4 at N = 3. -/
theorem c4_winning_combos_witness :
    1 ≤ 3 ∧
    ((get_winning_combos 3).length = 2 * 3 + 2 ∧
     (∀ combo ∈ get_winning_combos 3, combo.length = 3 ∧ combo.Nodup) ∧
     (∀ r, r < 3 → ∀ c, c < 3 →
       2 ≤ (get_winning_combos 3).countP (fun combo => decide ((r, c) ∈ combo)))) :=
  ⟨by decide, c4_winning_combos 3 (by decide)⟩

/-! The heuristic evaluator (claim C7). -/

lemma heuristic_fold (b : Board) :
    ∀ (combos : List (List (Nat × Nat))) (p q : Nat),
      combos.foldl (heuristic_step b) (p, q) =
        (p + combos.countP (line_open_for_O b), q + combos.countP (line_open_for_X b)) := by
  intro combos
  induction combos with
  | nil => intro p q; simp
  | cons combo rest ih =>
    intro p q
    have hstep : heuristic_step b (p, q) combo =
        (p + if line_open_for_O b combo then 1 else 0,
         q + if line_open_for_X b combo then 1 else 0) := by
      unfold heuristic_step line_open_for_O line_open_for_X
      cases hO : combo.any (fun p => getCell b p.1 p.2 == "O") <;>
        cases hX : combo.any (fun p => getCell b p.1 p.2 == "X") <;> simp
    show rest.foldl (heuristic_step b) (heuristic_step b (p, q) combo) = _
    rw [hstep, ih, List.countP_cons, List.countP_cons]
    by_cases hO : line_open_for_O b combo = true <;>
      by_cases hX : line_open_for_X b combo = true <;>
        simp only [hO, hX, if_true, if_false, Prod.mk.injEq] <;> omega

/-- Claim C7: heuristic_evaluation returns P - Q where P counts the winning
lines holding at least one "O" and no "X", and Q counts the lines holding
at least one "X" and no "O"; contested and empty lines contribute nothing.
The embedding is a pure function of the board: the Python method performs
no writes. -/
theorem c7_heuristic (combos : List (List (Nat × Nat))) (b : Board) :
    heuristic_evaluation combos b =
      (combos.countP (line_open_for_O b) : Int) -
        (combos.countP (line_open_for_X b) : Int) := by
  unfold heuristic_evaluation
  rw [heuristic_fold b combos 0 0]
  simp

/-! The depth bound (claim C6). -/

/-- Claim C6: for cells_left between 0 and board_size^2 (board_size >= 1),
the depth bound ai passes to minimax is
base + floor((cells_filled / total_cells) * depth_growth) with base = 2 and
depth_growth = 2, where total_cells = board_size^2 and
cells_filled = total_cells - cells_left. -/
theorem c6_depth_formula (n : Nat) (cells_left : Int) (hn : 1 ≤ n)
    (h0 : 0 ≤ cells_left) (h1 : cells_left ≤ (n : Int) ^ 2) :
    ai_max_depth n cells_left =
      2 + ⌊((((n : Int) ^ 2 - cells_left : Int) : ℚ) / (((n : Int) ^ 2 : Int) : ℚ)) * 2⌋ := by
  have hf : (0 : ℚ) ≤ (((n : Int) ^ 2 - cells_left : Int) : ℚ) := by
    have h : (0 : Int) ≤ (n : Int) ^ 2 - cells_left := by omega
    exact_mod_cast h
  have hm : (0 : ℚ) ≤ (((n : Int) ^ 2 : Int) : ℚ) := by positivity
  have hq : (0 : ℚ) ≤
      ((((n : Int) ^ 2 - cells_left : Int) : ℚ) / (((n : Int) ^ 2 : Int) : ℚ)) * 2 := by
    have := div_nonneg hf hm
    linarith
  show 2 + py_int (((((n : Int) ^ 2 : Int) - cells_left : Int) : ℚ)
      / ((((n : Int) ^ 2 : Int) : Int) : ℚ) * 2) = _
  unfold py_int
  rw [if_pos hq]

/-- Witness for C6 at board_size = 3, cells_left = 4. -/
theorem c6_depth_formula_witness :
    (1 ≤ 3 ∧ 0 ≤ (4 : Int) ∧ (4 : Int) ≤ ((3 : Nat) : Int) ^ 2) ∧
    ai_max_depth 3 4 =
      2 + ⌊(((((3 : Nat) : Int) ^ 2 - 4 : Int) : ℚ) / ((((3 : Nat) : Int) ^ 2 : Int) : ℚ)) * 2⌋ :=
  ⟨⟨by decide, by decide, by decide⟩, c6_depth_formula 3 4 (by decide) (by decide) (by decide)⟩

/-! The "Y" defect (claims C1 and C2).  get_winner reports an all-"O" line
with the string "Y" (src/tictactoe.py line 161), while minimax tests the
returned string against "O" (line 101), so a position won by "O" falls
through to the heuristic evaluator instead of scoring 10 - depth. -/

/-- Claim C2 (code evaluation at the failing input): on a board whose top
row is uniformly "O", get_winner reports the win with the string "Y", not
with the mark "O" that fills the line. -/
theorem c2_code_eval :
    get_winner (get_winning_combos 3) o_row_board =
      (some "Y", [(0, 0), (0, 1), (0, 2)]) ∧ "Y" ≠ "O" := by
  exact ⟨by decide, by decide⟩

/-- Claim C1 (code evaluation at the failing input): at depth 1 with
max_depth 3, on a position won by the maximizing mark "O", minimax returns
the heuristic evaluation (6 here) instead of 10 - 1 = 9, because get_winner
hands it "Y" and it compares against "O". -/
theorem c1_code_eval :
    (minimax 3 (get_winning_combos 3) 9 o_row_board false ⊥ ⊤ 3 1).1 =
      toScore (heuristic_evaluation (get_winning_combos 3) o_row_board) ∧
    heuristic_evaluation (get_winning_combos 3) o_row_board = 6 ∧
    toScore 6 ≠ toScore (10 - 1) := by
  exact ⟨by decide, by decide, by decide⟩

/-! Resetting the game (claim C9). -/

lemma getCell_reset (b : Board) (r c : Nat) :
    getCell (b.map (fun row => row.map (fun _ => ""))) r c = "" := by
  unfold getCell
  have h1 : (b.map (fun row => row.map (fun _ : String => ""))).getD r []
      = (b.getD r []).map (fun _ => "") := by
    rw [List.getD_eq_getElem?_getD, List.getD_eq_getElem?_getD, List.getElem?_map]
    cases b[r]? <;> simp
  rw [h1, List.getD_eq_getElem?_getD, List.getElem?_map]
  cases (b.getD r [])[c]? <;> simp

lemma scan_combos_none {b : Board} :
    ∀ {combos : List (List (Nat × Nat))},
      (∀ combo ∈ combos, ∃ p ∈ combo, getCell b p.1 p.2 = "") →
      scan_combos b combos = none := by
  intro combos
  induction combos with
  | nil => intro _; rfl
  | cons combo rest ih =>
    intro h
    obtain ⟨p, hp, hcell⟩ := h combo (List.mem_cons_self combo rest)
    have hX : ¬ (combo.all (fun p => getCell b p.1 p.2 == "X") = true) := by
      intro hall
      have := List.all_eq_true.mp hall p hp
      rw [hcell] at this
      exact absurd this (by decide)
    have hO : ¬ (combo.all (fun p => getCell b p.1 p.2 == "O") = true) := by
      intro hall
      have := List.all_eq_true.mp hall p hp
      rw [hcell] at this
      exact absurd this (by decide)
    rw [scan_combos, if_neg hX, if_neg hO]
    exact ih (fun combo hc => h combo (List.mem_cons_of_mem _ hc))

/-- Claim C9: after reset_game every cell is Empty, the outcome computed by
get_winner from the reset board is InProgress (no winner, no combo), and
the precomputed winning-line set is untouched (the field is not even
rewritten), whatever the prior state was. -/
theorem c9_reset (g : TicTacToeGame)
    (hcombos : g.winning_combos = get_winning_combos g.board_size)
    (hn : 1 ≤ g.board_size)
    (hwf : wf_board g.board_size g.board) :
    (∀ row ∈ (reset_game g).board, ∀ s ∈ row, s = "") ∧
    get_winner (reset_game g).winning_combos (reset_game g).board = (none, []) ∧
    (reset_game g).winning_combos = g.winning_combos := by
  obtain ⟨hlen, hrows⟩ := hwf
  refine ⟨?_, ?_, rfl⟩
  · intro row hrow s hs
    simp only [reset_game, List.mem_map] at hrow
    obtain ⟨row0, _, rfl⟩ := hrow
    simp only [List.mem_map] at hs
    obtain ⟨s0, _, rfl⟩ := hs
    rfl
  · show get_winner g.winning_combos (g.board.map (fun row => row.map (fun _ => ""))) = _
    unfold get_winner
    rw [scan_combos_none]
    · have hne : g.board ≠ [] := by
        intro he
        rw [he] at hlen
        simp at hlen
        omega
      obtain ⟨row0, rest, hb⟩ := List.exists_cons_of_ne_nil hne
      have hrow0 : row0.length = g.board_size := hrows row0 (by rw [hb]; exact List.mem_cons_self _ _)
      have hrow0ne : row0 ≠ [] := by
        intro he
        rw [he] at hrow0
        simp at hrow0
        omega
      obtain ⟨s0, srest, hs⟩ := List.exists_cons_of_ne_nil hrow0ne
      rw [hb, hs]
      simp
    · intro combo hc
      rw [hcombos] at hc
      have hlen' := (combo_shape g.board_size combo hc).1
      have hne : combo ≠ [] := by
        intro he
        rw [he] at hlen'
        simp at hlen'
        omega
      obtain ⟨p, prest, hp⟩ := List.exists_cons_of_ne_nil hne
      exact ⟨p, by rw [hp]; exact List.mem_cons_self _ _, getCell_reset _ _ _⟩

/-! Move validation (claim C8). -/

lemma pyResolve_lt {n : Nat} {i : Int} (h1 : -(n : Int) ≤ i) (h2 : i < (n : Int)) :
    pyResolve n i < n := by
  unfold pyResolve
  split <;> omega

lemma py_list_get_in_range {α : Type} (l : List α) (i : Int) (d : α)
    (h1 : -(l.length : Int) ≤ i) (h2 : i < (l.length : Int)) :
    py_list_get l i = some (l.getD (pyResolve l.length i) d) := by
  unfold py_list_get
  by_cases h0 : 0 ≤ i
  · have hi : i.toNat < l.length := by omega
    have hres : pyResolve l.length i = i.toNat := by unfold pyResolve; rw [if_pos h0]
    rw [if_pos h0, hres, List.get?_eq_getElem?, List.getElem?_eq_getElem hi,
      List.getD_eq_getElem l d hi]
  · have hi : (i + l.length).toNat < l.length := by omega
    have hres : pyResolve l.length i = (i + l.length).toNat := by
      unfold pyResolve; rw [if_neg h0]
    rw [if_neg h0, if_pos h1, hres, List.get?_eq_getElem?, List.getElem?_eq_getElem hi,
      List.getD_eq_getElem l d hi]

lemma py_list_get_none_iff {α : Type} (l : List α) (i : Int) :
    py_list_get l i = none ↔ (i < -(l.length : Int) ∨ (l.length : Int) ≤ i) := by
  by_cases hin : -(l.length : Int) ≤ i ∧ i < (l.length : Int)
  · obtain ⟨h1, h2⟩ := hin
    constructor
    · intro h
      unfold py_list_get at h
      by_cases h0 : 0 ≤ i
      · rw [if_pos h0, List.get?_eq_getElem?,
          List.getElem?_eq_getElem (show i.toNat < l.length by omega)] at h
        exact absurd h (by simp)
      · rw [if_neg h0, if_pos h1, List.get?_eq_getElem?,
          List.getElem?_eq_getElem (show (i + l.length).toNat < l.length by omega)] at h
        exact absurd h (by simp)
    · intro h
      exact absurd h (by omega)
  · unfold py_list_get
    by_cases h0 : 0 ≤ i
    · have : l.length ≤ i.toNat := by omega
      rw [if_pos h0, List.get?_eq_getElem?,
        List.getElem?_eq_none_iff.mpr this]
      constructor
      · intro _
        omega
      · intro _
        rfl
    · have h1 : ¬ (-(l.length : Int) ≤ i) := by omega
      rw [if_neg h0, if_neg h1]
      constructor
      · intro _
        omega
      · intro _
        rfl

/-- Claim C8, amended: is_valid_move returns some true iff the winner FLAG
is clear and the cell addressed with Python list-index semantics (negative
indices in [-N, 0) wrap to the end) is empty; coordinates outside [-N, N)
raise IndexError (none) instead of being reported illegal; the board
outcome is never consulted, so a completed winning line on the board does
not by itself make a move invalid — only the flag does. -/
theorem c8_is_valid_move_amended (g : TicTacToeGame) (row col : Int)
    (hwf : wf_board g.board_size g.board) :
    (is_valid_move g row col = some true ↔
      (g.has_winner = false ∧
       (-(g.board_size : Int) ≤ row ∧ row < (g.board_size : Int)) ∧
       (-(g.board_size : Int) ≤ col ∧ col < (g.board_size : Int)) ∧
       getCell g.board (pyResolve g.board_size row) (pyResolve g.board_size col) = "")) ∧
    (is_valid_move g row col = none ↔
      (row < -(g.board_size : Int) ∨ (g.board_size : Int) ≤ row ∨
       col < -(g.board_size : Int) ∨ (g.board_size : Int) ≤ col)) := by
  obtain ⟨hlen, hrows⟩ := hwf
  by_cases hr : -(g.board_size : Int) ≤ row ∧ row < (g.board_size : Int)
  · have hrow : py_list_get g.board row
        = some (g.board.getD (pyResolve g.board_size row) []) := by
      have h := py_list_get_in_range g.board row []
        (by rw [hlen]; exact hr.1) (by rw [hlen]; exact hr.2)
      rw [hlen] at h
      exact h
    have hlt : pyResolve g.board_size row < g.board.length := by
      rw [hlen]
      exact pyResolve_lt hr.1 hr.2
    have hmem : g.board.getD (pyResolve g.board_size row) [] ∈ g.board := by
      rw [List.getD_eq_getElem _ _ hlt]
      exact List.getElem_mem hlt
    have hrlen : (g.board.getD (pyResolve g.board_size row) []).length = g.board_size :=
      hrows _ hmem
    by_cases hc : -(g.board_size : Int) ≤ col ∧ col < (g.board_size : Int)
    · have hcol : py_list_get (g.board.getD (pyResolve g.board_size row) []) col
          = some ((g.board.getD (pyResolve g.board_size row) []).getD
              (pyResolve g.board_size col) "") := by
        have h := py_list_get_in_range (g.board.getD (pyResolve g.board_size row) []) col ""
          (by rw [hrlen]; exact hc.1) (by rw [hrlen]; exact hc.2)
        rw [hrlen] at h
        exact h
      have hval : is_valid_move g row col
          = some (!g.has_winner &&
              (getCell g.board (pyResolve g.board_size row) (pyResolve g.board_size col) == "")) := by
        simp only [is_valid_move, hrow, hcol, getCell]
      rw [hval]
      constructor
      · simp only [Option.some.injEq, Bool.and_eq_true, Bool.not_eq_true', beq_iff_eq]
        constructor
        · rintro ⟨h1, h2⟩
          exact ⟨h1, hr, hc, h2⟩
        · rintro ⟨h1, _, _, h4⟩
          exact ⟨h1, h4⟩
      · simp only [reduceCtorEq, false_iff]
        omega
    · have hcol : py_list_get (g.board.getD (pyResolve g.board_size row) []) col = none := by
        rw [py_list_get_none_iff, hrlen]
        omega
      have hval : is_valid_move g row col = none := by
        simp only [is_valid_move, hrow, hcol]
      rw [hval]
      constructor
      · simp only [reduceCtorEq, false_iff]
        intro hcontra
        exact hc ⟨hcontra.2.2.1.1, hcontra.2.2.1.2⟩
      · simp only [true_iff]
        omega
  · have hrow : py_list_get g.board row = none := by
      rw [py_list_get_none_iff, hlen]
      omega
    have hval : is_valid_move g row col = none := by
      simp only [is_valid_move, hrow]
    rw [hval]
    constructor
    · simp only [reduceCtorEq, false_iff]
      intro hcontra
      exact hr hcontra.2.1
    · simp only [true_iff]
      omega

/-- Witness for the amended C8 at the fresh game, coordinates (0, 0). -/
theorem c8_is_valid_move_amended_witness :
    wf_board g8.board_size g8.board ∧
    ((is_valid_move g8 0 0 = some true ↔
      (g8.has_winner = false ∧
       (-(g8.board_size : Int) ≤ 0 ∧ (0 : Int) < (g8.board_size : Int)) ∧
       (-(g8.board_size : Int) ≤ 0 ∧ (0 : Int) < (g8.board_size : Int)) ∧
       getCell g8.board (pyResolve g8.board_size 0) (pyResolve g8.board_size 0) = "")) ∧
     (is_valid_move g8 0 0 = none ↔
       ((0 : Int) < -(g8.board_size : Int) ∨ (g8.board_size : Int) ≤ 0 ∨
        (0 : Int) < -(g8.board_size : Int) ∨ (g8.board_size : Int) ≤ 0))) :=
  ⟨by decide, c8_is_valid_move_amended g8 0 0 (by decide)⟩

/-- Claim C8, counterexample: on a fresh 3 by 3 game the claim demands that
the out-of-range coordinate row = -1 be reported illegal (some false); the
code instead wraps it Python-style to row 2 and reports the move valid. -/
theorem c8_counterexample :
    is_valid_move g8 (-1) 0 = some true ∧ is_valid_move g8 (-1) 0 ≠ some false := by
  exact ⟨by decide, by decide⟩

/-- Witness for C9: a 3 by 3 game mid-position with the winner flag set. -/
theorem c9_reset_witness :
    (g9.winning_combos = get_winning_combos g9.board_size ∧
     1 ≤ g9.board_size ∧ wf_board g9.board_size g9.board) ∧
    ((∀ row ∈ (reset_game g9).board, ∀ s ∈ row, s = "") ∧
     get_winner (reset_game g9).winning_combos (reset_game g9).board = (none, []) ∧
     (reset_game g9).winning_combos = g9.winning_combos) :=
  ⟨⟨rfl, by decide, by decide⟩,
   c9_reset g9 rfl (by decide) (by decide)⟩

/-! The selection fold underlying the ai loop (claims C5 and C10). -/

lemma sel_fold_cons {α : Type} (f : α → Score) (x : α) (t : List α) (s : Score)
    (m : Option α) :
    sel_fold f (x :: t) (s, m) = sel_fold f t (if s < f x then (f x, some x) else (s, m)) := rfl

lemma sel_fold_append {α : Type} (f : α → Score) (l1 l2 : List α) (st : Score × Option α) :
    sel_fold f (l1 ++ l2) st = sel_fold f l2 (sel_fold f l1 st) :=
  List.foldl_append _ _ _ _

lemma sel_fold_fst {α : Type} (f : α → Score) :
    ∀ (l : List α) (s : Score) (m : Option α),
      (sel_fold f l (s, m)).1 = list_max f s l := by
  intro l
  induction l with
  | nil => intro s m; rfl
  | cons x t ih =>
    intro s m
    rw [sel_fold_cons]
    show _ = list_max f (max s (f x)) t
    by_cases h : s < f x
    · rw [if_pos h, ih, max_eq_right h.le]
    · rw [if_neg h, ih, max_eq_left (le_of_not_lt h)]

lemma le_list_max_self {α : Type} (f : α → Score) :
    ∀ (l : List α) (s : Score), s ≤ list_max f s l := by
  intro l
  induction l with
  | nil => intro s; exact le_refl s
  | cons x t ih =>
    intro s
    show s ≤ list_max f (max s (f x)) t
    exact le_trans (le_max_left s (f x)) (ih (max s (f x)))

lemma le_list_max_of_mem {α : Type} (f : α → Score) :
    ∀ (l : List α) (s : Score) (q : α), q ∈ l → f q ≤ list_max f s l := by
  intro l
  induction l with
  | nil => intro s q hq; exact absurd hq (List.not_mem_nil q)
  | cons x t ih =>
    intro s q hq
    rcases List.mem_cons.mp hq with rfl | hmem
    · show f q ≤ list_max f (max s (f q)) t
      exact le_trans (le_max_right s (f q)) (le_list_max_self f t (max s (f q)))
    · exact ih (max s (f x)) q hmem

lemma list_max_attained {α : Type} (f : α → Score) :
    ∀ (l : List α) (s : Score), s < list_max f s l → ∃ p ∈ l, f p = list_max f s l := by
  intro l
  induction l with
  | nil => intro s h; exact absurd h (lt_irrefl s)
  | cons x t ih =>
    intro s h
    by_cases h2 : max s (f x) < list_max f (max s (f x)) t
    · obtain ⟨p, hp, he⟩ := ih (max s (f x)) h2
      exact ⟨p, List.mem_cons_of_mem x hp, he⟩
    · have heq : list_max f (max s (f x)) t = max s (f x) :=
        le_antisymm (le_of_not_lt h2) (le_list_max_self f t _)
      rcases max_choice s (f x) with hc | hc
      · exfalso
        have h' : s < list_max f (max s (f x)) t := h
        rw [heq, hc] at h'
        exact lt_irrefl s h'
      · refine ⟨x, List.mem_cons_self x t, ?_⟩
        show f x = list_max f (max s (f x)) t
        rw [heq, hc]

lemma sel_fold_snd_le {α : Type} (f : α → Score) :
    ∀ (l : List α) (s : Score) (m : Option α), ¬ s < list_max f s l →
      (sel_fold f l (s, m)).2 = m := by
  intro l
  induction l with
  | nil => intro s m _; rfl
  | cons x t ih =>
    intro s m h
    have h' : ¬ s < list_max f (max s (f x)) t := h
    have hx : ¬ s < f x := by
      intro hlt
      exact h' (lt_of_lt_of_le hlt
        (le_trans (le_max_right s (f x)) (le_list_max_self f t _)))
    rw [sel_fold_cons, if_neg hx]
    rw [max_eq_left (le_of_not_lt hx)] at h'
    exact ih s m h'

lemma sel_fold_snd_lt {α : Type} (f : α → Score) :
    ∀ (l : List α) (s : Score) (m : Option α), s < list_max f s l →
      (sel_fold f l (s, m)).2 = l.find? (fun p => f p == list_max f s l) := by
  intro l
  induction l with
  | nil => intro s m h; exact absurd h (lt_irrefl s)
  | cons x t ih =>
    intro s m h
    show (sel_fold f (x :: t) (s, m)).2
      = (x :: t).find? (fun p => f p == list_max f (max s (f x)) t)
    rw [sel_fold_cons]
    by_cases hx : s < f x
    · rw [if_pos hx, max_eq_right hx.le]
      by_cases h2 : f x < list_max f (f x) t
      · rw [List.find?_cons_of_neg _ (by
          simp only [beq_iff_eq]
          exact ne_of_lt h2)]
        exact ih (f x) (some x) h2
      · have heq : list_max f (f x) t = f x :=
          le_antisymm (le_of_not_lt h2) (le_list_max_self f t _)
        rw [sel_fold_snd_le f t (f x) (some x) h2,
          List.find?_cons_of_pos _ (by rw [heq]; exact beq_self_eq_true (f x))]
    · rw [if_neg hx, max_eq_left (le_of_not_lt hx)]
      have h'' : s < list_max f s t := by
        have h' : s < list_max f (max s (f x)) t := h
        rw [max_eq_left (le_of_not_lt hx)] at h'
        exact h'
      have hxne : f x ≠ list_max f s t :=
        ne_of_lt (lt_of_le_of_lt (le_of_not_lt hx) h'')
      rw [List.find?_cons_of_neg _ (by
        simp only [beq_iff_eq]
        exact hxne)]
      exact ih s m h''

lemma find?_split {α : Type} (p : α → Bool) :
    ∀ (l : List α) (a : α), l.find? p = some a →
      ∃ l1 l2, l = l1 ++ a :: l2 ∧ p a = true ∧ ∀ x ∈ l1, p x = false := by
  intro l
  induction l with
  | nil => intro a h; simp at h
  | cons x t ih =>
    intro a h
    by_cases hx : p x = true
    · rw [List.find?_cons_of_pos _ hx] at h
      have he : x = a := by injection h
      subst he
      exact ⟨[], t, rfl, hx, fun y hy => absurd hy (List.not_mem_nil y)⟩
    · rw [List.find?_cons_of_neg _ hx] at h
      obtain ⟨l1, l2, he, hp, hall⟩ := ih a h
      refine ⟨x :: l1, l2, by rw [he]; rfl, hp, ?_⟩
      intro y hy
      rcases List.mem_cons.mp hy with rfl | hy2
      · exact Bool.eq_false_iff.mpr hx
      · exact hall y hy2

/-! The ai loop computes exactly the selection fold over the row-major
candidate list (the board, threaded through every step, stays fixed). -/

lemma ai_step_eq (n : Nat) (combos : List (List (Nat × Nat))) (maxD : Int) (r : Nat)
    (b : Board) (s : Score) (m : Option (Nat × Nat)) (c : Nat)
    (hcell : getCell b r c = "") :
    ai_step n combos maxD r (s, m, b) c =
      (if s < score_of n combos b maxD (r, c)
       then (score_of n combos b maxD (r, c), some (r, c), b)
       else (s, m, b)) := by
  have hb3 : setCell (minimax n combos (n ^ 2) (setCell b r c "O") false ⊥ ⊤ maxD 0).2 r c ""
      = b := by
    rw [minimax_board, setCell_setCell, setCell_restore hcell]
  simp only [ai_step]
  rw [if_pos hcell, hb3]
  rfl

lemma ai_cols_eq (n : Nat) (combos : List (List (Nat × Nat))) (maxD : Int) (r : Nat)
    (b : Board) :
    ∀ (cols : List Nat) (s : Score) (m : Option (Nat × Nat)),
      cols.foldl (ai_step n combos maxD r) (s, m, b) =
        ((sel_fold (score_of n combos b maxD)
            ((cols.filter (fun c => getCell b r c == "")).map (fun c => (r, c))) (s, m)).1,
         (sel_fold (score_of n combos b maxD)
            ((cols.filter (fun c => getCell b r c == "")).map (fun c => (r, c))) (s, m)).2,
         b) := by
  intro cols
  induction cols with
  | nil => intro s m; rfl
  | cons c rest ih =>
    intro s m
    show rest.foldl (ai_step n combos maxD r) (ai_step n combos maxD r (s, m, b) c) = _
    by_cases hcell : getCell b r c = ""
    · have hfilter : (c :: rest).filter (fun c => getCell b r c == "") =
          c :: rest.filter (fun c => getCell b r c == "") :=
        List.filter_cons_of_pos (by rw [hcell]; exact beq_self_eq_true "")
      rw [ai_step_eq n combos maxD r b s m c hcell, hfilter, List.map_cons, sel_fold_cons]
      by_cases hlt : s < score_of n combos b maxD (r, c)
      · rw [if_pos hlt, if_pos hlt, ih]
      · rw [if_neg hlt, if_neg hlt, ih]
    · have hfilter : (c :: rest).filter (fun c => getCell b r c == "") =
          rest.filter (fun c => getCell b r c == "") :=
        List.filter_cons_of_neg (by
          simp only [beq_iff_eq]
          exact hcell)
      have hskip : ai_step n combos maxD r (s, m, b) c = (s, m, b) := by
        simp only [ai_step]
        rw [if_neg hcell]
      rw [hskip, hfilter, ih]

lemma ai_rows_eq (n : Nat) (combos : List (List (Nat × Nat))) (maxD : Int) (b : Board) :
    ∀ (rows : List Nat) (s : Score) (m : Option (Nat × Nat)),
      rows.foldl (fun st r => (List.range n).foldl (ai_step n combos maxD r) st) (s, m, b) =
        ((sel_fold (score_of n combos b maxD)
            (rows.flatMap (fun r =>
              ((List.range n).filter (fun c => getCell b r c == "")).map (fun c => (r, c))))
            (s, m)).1,
         (sel_fold (score_of n combos b maxD)
            (rows.flatMap (fun r =>
              ((List.range n).filter (fun c => getCell b r c == "")).map (fun c => (r, c))))
            (s, m)).2,
         b) := by
  intro rows
  induction rows with
  | nil => intro s m; rfl
  | cons r rest ih =>
    intro s m
    show rest.foldl _ ((List.range n).foldl (ai_step n combos maxD r) (s, m, b)) = _
    rw [ai_cols_eq n combos maxD r b (List.range n) s m, ih, List.flatMap_cons, sel_fold_append]

lemma ai_fst_eq (n : Nat) (combos : List (List (Nat × Nat))) (b : Board) (cl : Int) :
    (ai n combos b cl).1 =
      (sel_fold (score_of n combos b (ai_max_depth n cl)) (candidates n b) (⊥, none)).2 := by
  show ((List.range n).foldl
      (fun st r => (List.range n).foldl (ai_step n combos (ai_max_depth n cl) r) st)
      ((⊥ : Score), (none : Option (Nat × Nat)), b)).2.1 = _
  rw [ai_rows_eq]
  rfl

/-! Minimax scores are finite: strictly between the two infinity sentinels.
This needs the board to be a genuine n by n grid (wf_board), because a
non-terminal position then has an empty cell inside the scanned range, and
the first empty cell of a row is always processed before the pruning break
can fire. -/

lemma bot_lt_toScore (k : Int) : (⊥ : Score) < toScore k := WithBot.bot_lt_coe _

lemma toScore_lt_top (k : Int) : toScore k < ⊤ :=
  WithBot.coe_lt_coe.mpr (WithTop.coe_lt_top k)

lemma mem_set {α : Type} :
    ∀ (l : List α) (i : Nat) (v x : α), x ∈ l.set i v → x ∈ l ∨ x = v := by
  intro l
  induction l with
  | nil => intro i v x hx; simp at hx
  | cons y t ih =>
    intro i v x hx
    cases i with
    | zero =>
      rw [List.set_cons_zero] at hx
      rcases List.mem_cons.mp hx with rfl | hmem
      · exact Or.inr rfl
      · exact Or.inl (List.mem_cons_of_mem y hmem)
    | succ j =>
      rw [List.set_cons_succ] at hx
      rcases List.mem_cons.mp hx with rfl | hmem
      · exact Or.inl (List.mem_cons_self x t)
      · rcases ih j v x hmem with h | h
        · exact Or.inl (List.mem_cons_of_mem y h)
        · exact Or.inr h

lemma wf_setCell {n : Nat} {b : Board} (h : wf_board n b) (r c : Nat) (v : String) :
    wf_board n (setCell b r c v) := by
  obtain ⟨hlen, hrows⟩ := h
  by_cases hr : r < b.length
  · constructor
    · show (b.set r _).length = n
      rw [List.length_set]
      exact hlen
    · intro row hrow
      rcases mem_set _ _ _ _ hrow with hmem | rfl
      · exact hrows _ hmem
      · rw [List.length_set]
        exact hrows _ (by rw [List.getD_eq_getElem _ _ hr]; exact List.getElem_mem hr)
  · rw [setCell_oob (le_of_not_lt hr)]
    exact ⟨hlen, hrows⟩

lemma get_winner_none_not_full {combos : List (List (Nat × Nat))} {b : Board}
    (h : (get_winner combos b).1 = none) :
    ¬ (b.all (fun row => row.all (fun s => s != "")) = true) := by
  intro hall
  unfold get_winner at h
  rcases hscan : scan_combos b combos with _ | ⟨w, combo⟩ <;> rw [hscan] at h <;>
    simp [hall] at h

lemma exists_empty_of_not_full {n : Nat} {b : Board} (hwf : wf_board n b)
    (h : ¬ (b.all (fun row => row.all (fun s => s != "")) = true)) :
    ∃ r ∈ List.range n, ∃ c ∈ List.range n, getCell b r c = "" := by
  obtain ⟨hlen, hrows⟩ := hwf
  have h2 : ¬ ∀ row ∈ b, (row.all (fun s => s != "")) = true := by
    intro hc
    exact h (List.all_eq_true.mpr hc)
  push_neg at h2
  obtain ⟨row, hrow, hfail⟩ := h2
  have h3 : ¬ ∀ s ∈ row, (s != "") = true := by
    intro hc
    exact hfail (List.all_eq_true.mpr hc)
  push_neg at h3
  obtain ⟨s, hs, hsfail⟩ := h3
  have hse : s = "" := by
    rcases eq_or_ne s "" with he | hne
    · exact he
    · exact absurd (bne_iff_ne.mpr hne) hsfail
  obtain ⟨i, hi, hieq⟩ := List.mem_iff_getElem.mp hrow
  obtain ⟨j, hj, hjeq⟩ := List.mem_iff_getElem.mp hs
  refine ⟨i, List.mem_range.mpr (by rw [← hlen]; exact hi), j,
    List.mem_range.mpr (by rw [← hrows row hrow]; exact hj), ?_⟩
  unfold getCell
  rw [List.getD_eq_getElem b [] hi, hieq, List.getD_eq_getElem row "" hj, hjeq, hse]

lemma cols_max_bounds {n : Nat} {rec : Board → Score → Score × Board}
    (hrb : ∀ b' a', (rec b' a').2 = b')
    (hrf : ∀ b' a', wf_board n b' → ⊥ < (rec b' a').1 ∧ (rec b' a').1 < ⊤)
    (beta : Score) (r : Nat) {b : Board} (hwf : wf_board n b) :
    ∀ (cols : List Nat) (best alpha : Score), best < ⊤ →
      (cols_max rec beta r cols (best, alpha, b)).1 < ⊤ ∧
      (⊥ < best → ⊥ < (cols_max rec beta r cols (best, alpha, b)).1) ∧
      ((∃ c ∈ cols, getCell b r c = "") →
        ⊥ < (cols_max rec beta r cols (best, alpha, b)).1) := by
  intro cols
  induction cols with
  | nil =>
    intro best alpha htop
    refine ⟨htop, fun hb => hb, fun hex => ?_⟩
    obtain ⟨c, hc, _⟩ := hex
    exact absurd hc (List.not_mem_nil c)
  | cons c rest ih =>
    intro best alpha htop
    by_cases hcell : getCell b r c = ""
    · have hwfb1 : wf_board n (setCell b r c "O") := wf_setCell hwf r c "O"
      have hp := hrf (setCell b r c "O") alpha hwfb1
      have hb3 : setCell (rec (setCell b r c "O") alpha).2 r c "" = b := by
        rw [hrb, setCell_setCell, setCell_restore hcell]
      have hbest' : max best (rec (setCell b r c "O") alpha).1 < ⊤ := max_lt htop hp.2
      have hbot' : ⊥ < max best (rec (setCell b r c "O") alpha).1 :=
        lt_max_of_lt_right hp.1
      rw [cols_max, if_pos hcell]
      by_cases hbreak : beta ≤ max alpha (max best (rec (setCell b r c "O") alpha).1)
      · simp only [hbreak, if_true]
        exact ⟨hbest', fun _ => hbot', fun _ => hbot'⟩
      · simp only [hbreak, if_false]
        rw [hb3]
        have ihres := ih (max best (rec (setCell b r c "O") alpha).1)
          (max alpha (max best (rec (setCell b r c "O") alpha).1)) hbest'
        exact ⟨ihres.1, fun _ => ihres.2.1 hbot', fun _ => ihres.2.1 hbot'⟩
    · rw [cols_max, if_neg hcell]
      have ihres := ih best alpha htop
      refine ⟨ihres.1, ihres.2.1, fun hex => ?_⟩
      obtain ⟨c', hc', hcell'⟩ := hex
      rcases List.mem_cons.mp hc' with rfl | hmem
      · exact absurd hcell' hcell
      · exact ihres.2.2 ⟨c', hmem, hcell'⟩

lemma cols_min_bounds {n : Nat} {rec : Board → Score → Score × Board}
    (hrb : ∀ b' a', (rec b' a').2 = b')
    (hrf : ∀ b' a', wf_board n b' → ⊥ < (rec b' a').1 ∧ (rec b' a').1 < ⊤)
    (alpha : Score) (r : Nat) {b : Board} (hwf : wf_board n b) :
    ∀ (cols : List Nat) (best beta : Score), ⊥ < best →
      ⊥ < (cols_min rec alpha r cols (best, beta, b)).1 ∧
      (best < ⊤ → (cols_min rec alpha r cols (best, beta, b)).1 < ⊤) ∧
      ((∃ c ∈ cols, getCell b r c = "") →
        (cols_min rec alpha r cols (best, beta, b)).1 < ⊤) := by
  intro cols
  induction cols with
  | nil =>
    intro best beta hbot
    refine ⟨hbot, fun hb => hb, fun hex => ?_⟩
    obtain ⟨c, hc, _⟩ := hex
    exact absurd hc (List.not_mem_nil c)
  | cons c rest ih =>
    intro best beta hbot
    by_cases hcell : getCell b r c = ""
    · have hwfb1 : wf_board n (setCell b r c "X") := wf_setCell hwf r c "X"
      have hp := hrf (setCell b r c "X") beta hwfb1
      have hb3 : setCell (rec (setCell b r c "X") beta).2 r c "" = b := by
        rw [hrb, setCell_setCell, setCell_restore hcell]
      have hbot' : ⊥ < min best (rec (setCell b r c "X") beta).1 := lt_min hbot hp.1
      have htop' : min best (rec (setCell b r c "X") beta).1 < ⊤ :=
        min_lt_of_right_lt hp.2
      rw [cols_min, if_pos hcell]
      by_cases hbreak : min beta (min best (rec (setCell b r c "X") beta).1) ≤ alpha
      · simp only [hbreak, if_true]
        exact ⟨hbot', fun _ => htop', fun _ => htop'⟩
      · simp only [hbreak, if_false]
        rw [hb3]
        have ihres := ih (min best (rec (setCell b r c "X") beta).1)
          (min beta (min best (rec (setCell b r c "X") beta).1)) hbot'
        exact ⟨ihres.1, fun _ => ihres.2.1 htop', fun _ => ihres.2.1 htop'⟩
    · rw [cols_min, if_neg hcell]
      have ihres := ih best beta hbot
      refine ⟨ihres.1, ihres.2.1, fun hex => ?_⟩
      obtain ⟨c', hc', hcell'⟩ := hex
      rcases List.mem_cons.mp hc' with rfl | hmem
      · exact absurd hcell' hcell
      · exact ihres.2.2 ⟨c', hmem, hcell'⟩

lemma rows_max_cons (rec : Board → Score → Score × Board) (beta : Score) (n r : Nat)
    (rest : List Nat) (st : Score × Score × Board) :
    rows_max rec beta n (r :: rest) st
      = rows_max rec beta n rest (cols_max rec beta r (List.range n) st) := rfl

lemma rows_min_cons (rec : Board → Score → Score × Board) (alpha : Score) (n r : Nat)
    (rest : List Nat) (st : Score × Score × Board) :
    rows_min rec alpha n (r :: rest) st
      = rows_min rec alpha n rest (cols_min rec alpha r (List.range n) st) := rfl

lemma rows_max_bounds {n : Nat} {rec : Board → Score → Score × Board}
    (hrb : ∀ b' a', (rec b' a').2 = b')
    (hrf : ∀ b' a', wf_board n b' → ⊥ < (rec b' a').1 ∧ (rec b' a').1 < ⊤)
    (beta : Score) {b : Board} (hwf : wf_board n b) :
    ∀ (rows : List Nat) (best alpha : Score), best < ⊤ →
      (rows_max rec beta n rows (best, alpha, b)).1 < ⊤ ∧
      (⊥ < best → ⊥ < (rows_max rec beta n rows (best, alpha, b)).1) ∧
      ((∃ r ∈ rows, ∃ c ∈ List.range n, getCell b r c = "") →
        ⊥ < (rows_max rec beta n rows (best, alpha, b)).1) := by
  intro rows
  induction rows with
  | nil =>
    intro best alpha htop
    refine ⟨htop, fun hb => hb, fun hex => ?_⟩
    obtain ⟨r, hr, _⟩ := hex
    exact absurd hr (List.not_mem_nil r)
  | cons r rest ih =>
    intro best alpha htop
    rw [rows_max_cons]
    have hcb : (cols_max rec beta r (List.range n) (best, alpha, b)).2.2 = b :=
      cols_max_board hrb beta r (List.range n) (best, alpha, b)
    have hcm := cols_max_bounds hrb hrf beta r hwf (List.range n) best alpha htop
    rcases hX : cols_max rec beta r (List.range n) (best, alpha, b) with ⟨s1, a1, b1⟩
    rw [hX] at hcb hcm
    have hb1 : b1 = b := hcb
    subst hb1
    have ihres := ih s1 a1 hcm.1
    refine ⟨ihres.1, fun hbot => ihres.2.1 (hcm.2.1 hbot), fun hex => ?_⟩
    obtain ⟨r', hr', hc⟩ := hex
    rcases List.mem_cons.mp hr' with rfl | hmem
    · exact ihres.2.1 (hcm.2.2 hc)
    · exact ihres.2.2 ⟨r', hmem, hc⟩

lemma rows_min_bounds {n : Nat} {rec : Board → Score → Score × Board}
    (hrb : ∀ b' a', (rec b' a').2 = b')
    (hrf : ∀ b' a', wf_board n b' → ⊥ < (rec b' a').1 ∧ (rec b' a').1 < ⊤)
    (alpha : Score) {b : Board} (hwf : wf_board n b) :
    ∀ (rows : List Nat) (best beta : Score), ⊥ < best →
      ⊥ < (rows_min rec alpha n rows (best, beta, b)).1 ∧
      (best < ⊤ → (rows_min rec alpha n rows (best, beta, b)).1 < ⊤) ∧
      ((∃ r ∈ rows, ∃ c ∈ List.range n, getCell b r c = "") →
        (rows_min rec alpha n rows (best, beta, b)).1 < ⊤) := by
  intro rows
  induction rows with
  | nil =>
    intro best beta hbot
    refine ⟨hbot, fun hb => hb, fun hex => ?_⟩
    obtain ⟨r, hr, _⟩ := hex
    exact absurd hr (List.not_mem_nil r)
  | cons r rest ih =>
    intro best beta hbot
    rw [rows_min_cons]
    have hcb : (cols_min rec alpha r (List.range n) (best, beta, b)).2.2 = b :=
      cols_min_board hrb alpha r (List.range n) (best, beta, b)
    have hcm := cols_min_bounds hrb hrf alpha r hwf (List.range n) best beta hbot
    rcases hX : cols_min rec alpha r (List.range n) (best, beta, b) with ⟨s1, be1, b1⟩
    rw [hX] at hcb hcm
    have hb1 : b1 = b := hcb
    subst hb1
    have ihres := ih s1 be1 hcm.1
    refine ⟨ihres.1, fun htop => ihres.2.1 (hcm.2.1 htop), fun hex => ?_⟩
    obtain ⟨r', hr', hc⟩ := hex
    rcases List.mem_cons.mp hr' with rfl | hmem
    · exact ihres.2.1 (hcm.2.2 hc)
    · exact ihres.2.2 ⟨r', hmem, hc⟩

lemma minimax_bounds (n : Nat) (combos : List (List (Nat × Nat))) :
    ∀ (fuel : Nat) (b : Board) (im : Bool) (alpha beta : Score) (mD d : Int),
      wf_board n b →
      ⊥ < (minimax n combos fuel b im alpha beta mD d).1 ∧
      (minimax n combos fuel b im alpha beta mD d).1 < ⊤ := by
  intro fuel
  induction fuel with
  | zero =>
    intro b im alpha beta mD d hwf
    rw [minimax]
    split
    · constructor <;> split_ifs <;>
        first
          | exact bot_lt_toScore _
          | exact toScore_lt_top _
    · exact ⟨bot_lt_toScore 0, toScore_lt_top 0⟩
  | succ f ihf =>
    intro b im alpha beta mD d hwf
    rw [minimax]
    split
    · constructor <;> split_ifs <;>
        first
          | exact bot_lt_toScore _
          | exact toScore_lt_top _
    · next hterm =>
      push_neg at hterm
      have hwin : (get_winner combos b).1 = none := hterm.2
      have hex := exists_empty_of_not_full hwf (get_winner_none_not_full hwin)
      cases im with
      | true =>
        simp only [if_true]
        have hres := rows_max_bounds
          (fun b' a' => minimax_board n combos f b' false a' beta mD (d + 1))
          (fun b' a' hw => ihf b' false a' beta mD (d + 1) hw)
          beta hwf (List.range n) ⊥ alpha bot_lt_top
        exact ⟨hres.2.2 hex, hres.1⟩
      | false =>
        simp only [Bool.false_eq_true, if_false]
        have hres := rows_min_bounds
          (fun b' b2 => minimax_board n combos f b' true alpha b2 mD (d + 1))
          (fun b' b2 hw => ihf b' true alpha b2 mD (d + 1) hw)
          alpha hwf (List.range n) ⊤ beta bot_lt_top
        exact ⟨hres.1, hres.2.2 hex⟩

/-! Move selection (claims C5 and C10). -/

/-- Claim C5: on any well-formed board with at least one empty cell (the
row-major candidate list is nonempty), for every cells_left argument, ai
returns the candidate whose minimax score is maximal, and among the
candidates achieving that score the FIRST one in row-major scan order:
every candidate strictly before the returned cell in the (row-major)
candidate list scores strictly less, and no candidate scores more.  Since
ai is (provably, via the restoration theorem) a function of the board and
cells_left alone, repeated calls on a fixed board and depth bound return
the same coordinate. -/
theorem c5_ai_first_argmax (n : Nat) (combos : List (List (Nat × Nat))) (b : Board)
    (cl : Int) (hwf : wf_board n b) (hne : candidates n b ≠ []) :
    ∃ p, (ai n combos b cl).1 = some p ∧ p ∈ candidates n b ∧
      (∀ q ∈ candidates n b,
        score_of n combos b (ai_max_depth n cl) q ≤ score_of n combos b (ai_max_depth n cl) p) ∧
      ∃ l1 l2, candidates n b = l1 ++ p :: l2 ∧
        ∀ q ∈ l1, score_of n combos b (ai_max_depth n cl) q
          < score_of n combos b (ai_max_depth n cl) p := by
  have hfin : ∀ q ∈ candidates n b, ⊥ < score_of n combos b (ai_max_depth n cl) q := by
    intro q hq
    exact (minimax_bounds n combos (n ^ 2) (setCell b q.1 q.2 "O") false ⊥ ⊤
      (ai_max_depth n cl) 0 (wf_setCell hwf q.1 q.2 "O")).1
  obtain ⟨q0, hq0⟩ := List.exists_mem_of_ne_nil _ hne
  have hM : ⊥ < list_max (score_of n combos b (ai_max_depth n cl)) ⊥ (candidates n b) :=
    lt_of_lt_of_le (hfin q0 hq0)
      (le_list_max_of_mem _ (candidates n b) ⊥ q0 hq0)
  have hsnd := sel_fold_snd_lt (score_of n combos b (ai_max_depth n cl))
    (candidates n b) ⊥ none hM
  have hfind : ∃ p ∈ candidates n b,
      (fun p => score_of n combos b (ai_max_depth n cl) p ==
        list_max (score_of n combos b (ai_max_depth n cl)) ⊥ (candidates n b)) p = true := by
    obtain ⟨p, hp, he⟩ := list_max_attained (score_of n combos b (ai_max_depth n cl))
      (candidates n b) ⊥ hM
    exact ⟨p, hp, by simp [he]⟩
  have hsome := List.find?_isSome.mpr hfind
  obtain ⟨p, hps⟩ := Option.isSome_iff_exists.mp hsome
  obtain ⟨l1, l2, hsplit, hpa, hl1⟩ := find?_split _ _ _ hps
  have hpM : score_of n combos b (ai_max_depth n cl) p
      = list_max (score_of n combos b (ai_max_depth n cl)) ⊥ (candidates n b) := by
    simpa using hpa
  refine ⟨p, ?_, List.mem_of_find?_eq_some hps, ?_, l1, l2, hsplit, ?_⟩
  · rw [ai_fst_eq, hsnd, hps]
  · intro q hq
    rw [hpM]
    exact le_list_max_of_mem _ (candidates n b) ⊥ q hq
  · intro q hq
    have hqmem : q ∈ candidates n b := by
      rw [hsplit]
      exact List.mem_append_left _ hq
    have hle := le_list_max_of_mem (score_of n combos b (ai_max_depth n cl))
      (candidates n b) ⊥ q hqmem
    have hne' : score_of n combos b (ai_max_depth n cl) q
        ≠ list_max (score_of n combos b (ai_max_depth n cl)) ⊥ (candidates n b) := by
      simpa using hl1 q hq
    rw [hpM]
    exact lt_of_le_of_ne hle hne'

/-- Witness for C5: the 2 by 2 board with one empty cell (1, 1). -/
theorem c5_ai_first_argmax_witness :
    (wf_board 2 b5 ∧ candidates 2 b5 ≠ []) ∧
    (∃ p, (ai 2 (get_winning_combos 2) b5 1).1 = some p ∧ p ∈ candidates 2 b5 ∧
      (∀ q ∈ candidates 2 b5,
        score_of 2 (get_winning_combos 2) b5 (ai_max_depth 2 1) q
          ≤ score_of 2 (get_winning_combos 2) b5 (ai_max_depth 2 1) p) ∧
      ∃ l1 l2, candidates 2 b5 = l1 ++ p :: l2 ∧
        ∀ q ∈ l1, score_of 2 (get_winning_combos 2) b5 (ai_max_depth 2 1) q
          < score_of 2 (get_winning_combos 2) b5 (ai_max_depth 2 1) p) :=
  ⟨⟨by decide, by decide⟩,
   c5_ai_first_argmax 2 (get_winning_combos 2) b5 1 (by decide) (by decide)⟩

/-- Claim C10: on a board with no empty cell in the scanned n by n range,
for every cells_left argument, the candidate loop never fires and ai
returns the initial best_move value None. -/
theorem c10_ai_full_board (n : Nat) (combos : List (List (Nat × Nat))) (b : Board)
    (cl : Int) (hfull : ∀ r ∈ List.range n, ∀ c ∈ List.range n, getCell b r c ≠ "") :
    (ai n combos b cl).1 = none := by
  have hcand : candidates n b = [] := by
    unfold candidates
    rw [List.flatMap_eq_nil_iff]
    intro r hr
    rw [List.map_eq_nil_iff, List.filter_eq_nil_iff]
    intro c hc
    simp only [beq_iff_eq]
    exact hfull r hr c hc
  rw [ai_fst_eq, hcand]
  rfl

/-- Witness for C10: the full 1 by 1 board. -/
theorem c10_ai_full_board_witness :
    (∀ r ∈ List.range 1, ∀ c ∈ List.range 1, getCell b10 r c ≠ "") ∧
    (ai 1 (get_winning_combos 1) b10 0).1 = none :=
  ⟨by decide, c10_ai_full_board 1 (get_winning_combos 1) b10 0 (by decide)⟩

end TicTacToe
